import Mathlib

/-!
Verification of the hanzifier-ext dataset-preparation pipeline.

Shallow embedding of scripts/prepare_dataset.py and its library modules
scripts/lib/morph_en.py, scripts/lib/morph_ru.py, scripts/lib/parse_unihan.py
and scripts/lib/parse_bkrs.py.

Modelling conventions:
- a Python string is a list of Unicode code points (Word below);
- a Python set of strings is a Finset Word; the insertion loops that build
  such sets become folds inserting into a Finset;
- external morphology oracles (the WordNet lemmatizer, lemminflect's
  getAllInflections, pymorphy2's parse) are abstract function parameters;
- mutation (the per-run memoization dicts) becomes explicit state passing.
-/

/-- A Word models a Python string as its list of Unicode code points. -/
abbrev Word := List Char

/-- Loop body of encode_suffix_variants (morph_en.py lines 60-67; the copy in
morph_ru.py lines 42-49 is character-for-character identical): the token, if
any, emitted for one element of forms. -/
def encodeForm (lem : Word) ( drop_non_prefix : Bool) (form : Word) : Option Word :=
  if form = lem then some lem
  else if lem.isPrefixOf form then
    (if form.drop lem.length = [] then some lem
     else some (lem ++ '#' :: form.drop lem.length))
  else if ! drop_non_prefix then some form
  else none

/-- Embedding of encode_suffix_variants (morph_en.py lines 53-68 and
morph_ru.py lines 35-50): iterate forms, accumulating the emitted tokens into
a set.  The per-form branch structure is encodeForm above. -/
def encode_suffix_variants (lem : Word) (forms : List Word)
    ( drop_non_prefix : Bool) : Finset Word :=
  forms.foldl (fun encoded form =>
    match encodeForm lem drop_non_prefix form with
    | some t => insert t encoded
    | none => encoded) ∅

lemma encode_foldl (lem : Word) (d : Bool) (forms : List Word) (acc : Finset Word) :
    forms.foldl (fun encoded form =>
      match encodeForm lem d form with
      | some t => insert t encoded
      | none => encoded) acc
      = acc ∪ (forms.filterMap (encodeForm lem d)).toFinset := by
  induction forms generalizing acc with
  | nil => simp
  | cons f fs ih =>
    rw [List.foldl_cons, List.filterMap_cons]
    cases h : encodeForm lem d f with
    | none =>
      simp only [h]
      exact ih acc
    | some t =>
      simp only [h, List.toFinset_cons]
      rw [ih, Finset.insert_union, Finset.union_insert]

lemma encode_eq_filterMap (lem : Word) (d : Bool) (forms : List Word) :
    encode_suffix_variants lem forms d = (forms.filterMap (encodeForm lem d)).toFinset := by
  rw [encode_suffix_variants, encode_foldl, Finset.empty_union]

lemma mem_encode_suffix_variants {lem x : Word} {forms : List Word} {d : Bool} :
    x ∈ encode_suffix_variants lem forms d ↔ ∃ f ∈ forms, encodeForm lem d f = some x := by
  rw [encode_eq_filterMap]
  simp [List.mem_filterMap]

lemma encodeForm_eq_some {lem f x : Word} {d : Bool} :
    encodeForm lem d f = some x ↔
      (f = lem ∧ x = lem) ∨
      (f ≠ lem ∧ lem <+: f ∧
        x = (if f.drop lem.length = [] then lem else lem ++ '#' :: f.drop lem.length)) ∨
      (¬ lem <+: f ∧ d = false ∧ x = f) := by
  unfold encodeForm
  by_cases h1 : f = lem
  · subst h1
    simp [List.prefix_refl, eq_comm]
  · rw [if_neg h1]
    by_cases h2 : lem <+: f
    · rw [if_pos (List.isPrefixOf_iff_prefix.mpr h2)]
      by_cases h3 : f.drop lem.length = []
      · simp [h1, h2, h3, eq_comm]
      · simp [h1, h2, h3, eq_comm]
    · rw [if_neg (by simpa [List.isPrefixOf_iff_prefix] using h2)]
      cases d with
      | false => simp [h1, h2, eq_comm]
      | true => simp [h1, h2]

lemma encode_perm {lem : Word} {d : Bool} {l1 l2 : List Word} (h : l1.Perm l2) :
    encode_suffix_variants lem l1 d = encode_suffix_variants lem l2 d := by
  rw [encode_eq_filterMap, encode_eq_filterMap]
  exact List.toFinset_eq_of_perm _ _ (h.filterMap _)

/-- C2: the Suffix Codec emits, per form, exactly the token described by the
four cases of the specification (bare lemma for the lemma itself, the
separator-encoded token for a literal-prefix form with the bare lemma as
defensive fallback for an empty remainder, the form itself when
dropNonPrefix is false, nothing otherwise), and the resulting set does not
depend on the order of the input forms. -/
theorem suffix_codec_characterization (lem : Word) (forms forms' : List Word) (d : Bool) :
    (∀ x : Word, x ∈ encode_suffix_variants lem forms d ↔
      ∃ f ∈ forms,
        (f = lem ∧ x = lem) ∨
        (f ≠ lem ∧ lem <+: f ∧
          x = (if f.drop lem.length = [] then lem else lem ++ '#' :: f.drop lem.length)) ∨
        (¬ lem <+: f ∧ d = false ∧ x = f))
    ∧ (forms.Perm forms' →
        encode_suffix_variants lem forms d = encode_suffix_variants lem forms' d) := by
  constructor
  · intro x
    rw [mem_encode_suffix_variants]
    constructor
    · rintro ⟨f, hf, he⟩
      exact ⟨f, hf, encodeForm_eq_some.mp he⟩
    · rintro ⟨f, hf, he⟩
      exact ⟨f, hf, encodeForm_eq_some.mpr he⟩
  · exact encode_perm

theorem suffix_codec_characterization_witness :
    encode_suffix_variants ['a'] [['a', 'b'], ['x']] true
      = encode_suffix_variants ['a'] [['x'], ['a', 'b']] true :=
  (suffix_codec_characterization ['a'] [['a', 'b'], ['x']] [['x'], ['a', 'b']] true).2
    (by decide)

/-- Character test used by decodeToken: true for every character other than
the separator. -/
def notSep (c : Char) : Bool := c != '#'

lemma notSep_true {c : Char} (h : c ≠ '#') : notSep c = true := by
  simp [notSep, h]

lemma notSep_head_ne {c : Char} {cs : List Char} (h : '#' ∉ c :: cs) : c ≠ '#' := by
  intro hc
  subst hc
  exact h (List.mem_cons_self _ _)

/-- Modelled from the spec: the decode direction of the Suffix Codec is only
implicitly defined by the source ("decoding lemma#suffix always reconstructs
lemma+suffix, and a bare lemma with no # reconstructs itself"); it splits a
token at the first separator character and concatenates the two parts, and a
token with no separator decodes to itself. -/
def decodeToken (tok : Word) : Word :=
  tok.takeWhile notSep ++ (tok.dropWhile notSep).tail

lemma takeWhile_notSep {L : Word} (h : '#' ∉ L) : L.takeWhile notSep = L := by
  induction L with
  | nil => rfl
  | cons c cs ih =>
    rw [List.takeWhile_cons, if_pos (notSep_true (notSep_head_ne h)),
      ih (fun hm => h (List.mem_cons_of_mem c hm))]

lemma dropWhile_notSep {L : Word} (h : '#' ∉ L) : L.dropWhile notSep = [] := by
  induction L with
  | nil => rfl
  | cons c cs ih =>
    rw [List.dropWhile_cons, if_pos (notSep_true (notSep_head_ne h)),
      ih (fun hm => h (List.mem_cons_of_mem c hm))]

lemma decodeToken_no_sep {L : Word} (h : '#' ∉ L) : decodeToken L = L := by
  unfold decodeToken
  rw [takeWhile_notSep h, dropWhile_notSep h]
  simp

lemma takeWhile_notSep_append {L : Word} (S : Word) (h : '#' ∉ L) :
    (L ++ '#' :: S).takeWhile notSep = L := by
  induction L with
  | nil =>
    rw [List.nil_append, List.takeWhile_cons, if_neg (by decide)]
  | cons c cs ih =>
    rw [List.cons_append, List.takeWhile_cons, if_pos (notSep_true (notSep_head_ne h)),
      ih (fun hm => h (List.mem_cons_of_mem c hm))]

lemma dropWhile_notSep_append {L : Word} (S : Word) (h : '#' ∉ L) :
    (L ++ '#' :: S).dropWhile notSep = '#' :: S := by
  induction L with
  | nil =>
    rw [List.nil_append, List.dropWhile_cons, if_neg (by decide)]
  | cons c cs ih =>
    rw [List.cons_append, List.dropWhile_cons, if_pos (notSep_true (notSep_head_ne h)),
      ih (fun hm => h (List.mem_cons_of_mem c hm))]

lemma decodeToken_sep {L : Word} (S : Word) (h : '#' ∉ L) :
    decodeToken (L ++ '#' :: S) = L ++ S := by
  unfold decodeToken
  rw [takeWhile_notSep_append S h, dropWhile_notSep_append S h, List.tail_cons]

/-- C4 as frozen is false: when the lemma itself contains the separator
character, splitting the encoded token at the first separator does not
recover the form.  Concretely, encode(L, [F]) with L = F = the one-character
string made of the separator yields the bare token, whose decode is the
empty string, not F. -/
theorem suffix_roundtrip_counterexample :
    ¬ (Finset.image decodeToken (encode_suffix_variants ['#'] [['#']] true)
        = {(['#'] : Word)}) := by decide

/-- C4 amended: for every lemma L that does not contain the separator
character and every form F having L as a literal prefix, decoding the single
token produced by encode(L, [F]) reconstructs exactly the singleton set of F,
for either value of dropNonPrefix. -/
theorem suffix_roundtrip (L F : Word) (d : Bool) (hsep : '#' ∉ L) (hpre : L <+: F) :
    Finset.image decodeToken (encode_suffix_variants L [F] d) = {F} := by
  obtain ⟨S, rfl⟩ := hpre
  by_cases hS : S = []
  · subst hS
    rw [encode_eq_filterMap]
    have hf : List.filterMap (encodeForm L d) [L ++ []] = [L] := by
      simp [encodeForm]
    rw [hf]
    simp [decodeToken_no_sep hsep]
  · have hne : L ++ S ≠ L := by
      intro hc
      apply hS
      have hlen := congrArg List.length hc
      simp only [List.length_append] at hlen
      have hz : S.length = 0 := by omega
      exact List.eq_nil_of_length_eq_zero hz
    have hdrop : (L ++ S).drop L.length = S := List.drop_left L S
    have henc : encodeForm L d (L ++ S) = some (L ++ '#' :: S) := by
      unfold encodeForm
      rw [if_neg hne, if_pos (List.isPrefixOf_iff_prefix.mpr ⟨S, rfl⟩), hdrop, if_neg hS]
    rw [encode_eq_filterMap]
    have hf : List.filterMap (encodeForm L d) [L ++ S] = [L ++ '#' :: S] := by
      simp only [List.filterMap_cons, henc, List.filterMap_nil]
    rw [hf]
    simp [decodeToken_sep S hsep]

theorem suffix_roundtrip_witness :
    ('#' ∉ (['s'] : Word))
      ∧ Finset.image decodeToken (encode_suffix_variants ['s'] [['s', 'o']] true)
          = {(['s', 'o'] : Word)} :=
  ⟨by decide, suffix_roundtrip ['s'] ['s', 'o'] true (by decide) ⟨['o'], rfl⟩⟩

/-- Python str.lower restricted to the character ranges this pipeline can
encounter (Basic Latin letters and the main Cyrillic block): uppercase Latin
letters and the two uppercase Cyrillic rows map to their lowercase
counterparts, every other character is fixed. -/
def toLowerPy (c : Char) : Char :=
  if 'A' ≤ c ∧ c ≤ 'Z' then Char.ofNat (c.toNat + 32)
  else if 'А' ≤ c ∧ c ≤ 'Я' then Char.ofNat (c.toNat + 32)
  else if 'Ѐ' ≤ c ∧ c ≤ 'Џ' then Char.ofNat (c.toNat + 80)
  else c

/-- Per-character Cyrillic test of _select_roots (prepare_dataset.py line 86):
the lowercased character lies in the lowercase Russian row or is the
lowercase io letter. -/
def isCyrillicChar (c : Char) : Bool :=
  ('а' ≤ toLowerPy c && toLowerPy c ≤ 'я') || toLowerPy c == 'ё'

/-- Word-level scan of _select_roots line 86: any character is Cyrillic. -/
def hasCyrillic (w : Word) : Bool := w.any isCyrillicChar

/-- Loop of _dedupe_preserve (prepare_dataset.py lines 66-74; parse_unihan.py
and parse_bkrs.py carry identical copies): seen is the membership set,
ordered the output list under construction. -/
def dedupeLoop (seen : Finset Word) (ordered : List Word) : List Word → List Word
  | [] => ordered
  | w :: ws =>
    if w ∈ seen then dedupeLoop seen ordered ws
    else dedupeLoop (insert w seen) (ordered ++ [w]) ws

/-- Embedding of _dedupe_preserve: first-occurrence-preserving
deduplication. -/
def dedupe_preserve (words : List Word) : List Word := dedupeLoop ∅ [] words

/-- Functional reformulation of the dedupe loop used in proofs. -/
def dedupeFrom (seen : Finset Word) : List Word → List Word
  | [] => []
  | w :: ws =>
    if w ∈ seen then dedupeFrom seen ws else w :: dedupeFrom (insert w seen) ws

lemma dedupeLoop_eq (seen : Finset Word) (ordered : List Word) (ws : List Word) :
    dedupeLoop seen ordered ws = ordered ++ dedupeFrom seen ws := by
  induction ws generalizing seen ordered with
  | nil => simp [dedupeLoop, dedupeFrom]
  | cons w ws ih =>
    by_cases h : w ∈ seen
    · simp [dedupeLoop, dedupeFrom, h, ih]
    · simp [dedupeLoop, dedupeFrom, h, ih]

lemma dedupe_preserve_eq (ws : List Word) : dedupe_preserve ws = dedupeFrom ∅ ws := by
  rw [dedupe_preserve, dedupeLoop_eq, List.nil_append]

lemma mem_of_mem_dedupeFrom {seen : Finset Word} {ws : List Word} {x : Word}
    (hx : x ∈ dedupeFrom seen ws) : x ∈ ws := by
  induction ws generalizing seen with
  | nil => simp [dedupeFrom] at hx
  | cons w ws ih =>
    by_cases h : w ∈ seen
    · simp only [dedupeFrom, if_pos h] at hx
      exact List.mem_cons_of_mem w (ih hx)
    · simp only [dedupeFrom, if_neg h, List.mem_cons] at hx
      rcases hx with rfl | hx
      · exact List.mem_cons_self _ _
      · exact List.mem_cons_of_mem w (ih hx)

lemma dedupeFrom_disjoint_seen {seen : Finset Word} {ws : List Word} {x : Word}
    (hx : x ∈ dedupeFrom seen ws) : x ∉ seen := by
  induction ws generalizing seen with
  | nil => simp [dedupeFrom] at hx
  | cons w ws ih =>
    by_cases h : w ∈ seen
    · rw [dedupeFrom, if_pos h] at hx
      exact ih hx
    · rw [dedupeFrom, if_neg h] at hx
      rcases List.mem_cons.mp hx with rfl | hx
      · exact h
      · intro hs
        exact ih hx (Finset.mem_insert_of_mem hs)

lemma dedupeFrom_nodup (seen : Finset Word) (ws : List Word) :
    (dedupeFrom seen ws).Nodup := by
  induction ws generalizing seen with
  | nil => simp [dedupeFrom]
  | cons w ws ih =>
    by_cases h : w ∈ seen
    · rw [dedupeFrom, if_pos h]
      exact ih seen
    · rw [dedupeFrom, if_neg h]
      refine List.nodup_cons.mpr ⟨?_, ih _⟩
      intro hw
      exact dedupeFrom_disjoint_seen hw (Finset.mem_insert_self _ _)

lemma dedupe_preserve_nodup (ws : List Word) : (dedupe_preserve ws).Nodup := by
  rw [dedupe_preserve_eq]
  exact dedupeFrom_nodup ∅ ws

/-- Embedding of _select_roots (prepare_dataset.py lines 77-88): concatenate
primary then secondary candidates, dedupe preserving first occurrence, take
the first max_roots, and tag each surviving word by the Cyrillic scan. -/
def select_roots (en_roots ru_roots : List Word) (max_roots : Nat) :
    List (Word × String) :=
  ((dedupe_preserve (en_roots ++ ru_roots)).take max_roots).map
    (fun word => (word, if hasCyrillic word then "ru" else "en"))

/-- C3: the Root Selector returns the first-occurrence deduplication of
primary ++ secondary truncated to max_roots entries, hence its length is at
most max_roots and the returned words are pairwise distinct.  (Determinism
over equal inputs is immediate: the embedding is a pure function of its two
candidate lists.) -/
theorem root_selector_spec (en_roots ru_roots : List Word) (max_roots : Nat) :
    (select_roots en_roots ru_roots max_roots).map Prod.fst
        = (dedupe_preserve (en_roots ++ ru_roots)).take max_roots
    ∧ (select_roots en_roots ru_roots max_roots).length ≤ max_roots
    ∧ ((select_roots en_roots ru_roots max_roots).map Prod.fst).Nodup := by
  have hmap : (select_roots en_roots ru_roots max_roots).map Prod.fst
      = (dedupe_preserve (en_roots ++ ru_roots)).take max_roots := by
    rw [select_roots, List.map_map]
    have hid : (Prod.fst ∘ fun word : Word =>
        (word, if hasCyrillic word then "ru" else "en")) = id := rfl
    rw [hid, List.map_id]
  refine ⟨hmap, ?_, ?_⟩
  · have hlen : (select_roots en_roots ru_roots max_roots).length
        = ((dedupe_preserve (en_roots ++ ru_roots)).take max_roots).length := by
      rw [select_roots, List.length_map]
    rw [hlen, List.length_take]
    exact min_le_left _ _
  · rw [hmap]
    exact List.Nodup.sublist (List.take_sublist _ _) (dedupe_preserve_nodup _)

/-- C5: a word selected by the Root Selector carries the secondary-language
tag "ru" exactly when the selector's case-insensitive scan finds a Cyrillic
letter in it, and the primary-language tag "en" exactly when it finds
none. -/
theorem root_selector_tagging (en_roots ru_roots : List Word) (max_roots : Nat)
    (w : Word) (t : String)
    (hmem : (w, t) ∈ select_roots en_roots ru_roots max_roots) :
    (t = "ru" ↔ hasCyrillic w = true) ∧ (t = "en" ↔ hasCyrillic w = false) := by
  simp only [select_roots, List.mem_map] at hmem
  obtain ⟨word, _, heq⟩ := hmem
  have h1 : word = w := congrArg Prod.fst heq
  have h2 : (if hasCyrillic word then "ru" else "en") = t := congrArg Prod.snd heq
  subst h1
  subst h2
  cases hcy : hasCyrillic word with
  | false => simp [hcy]
  | true => simp [hcy]

theorem root_selector_tagging_witness :
    ((['д', 'а'], ("ru" : String)) ∈ select_roots [['д', 'а']] [] 3)
      ∧ (("ru" = "ru" ↔ hasCyrillic ['д', 'а'] = true)
          ∧ (("ru" : String) = "en" ↔ hasCyrillic ['д', 'а'] = false)) :=
  ⟨by decide, root_selector_tagging [['д', 'а']] [] 3 ['д', 'а'] "ru" (by decide)⟩

/-- One dataset record (prepare_dataset.py lines 122-127): the hanzi and its
ordered meaning list. -/
structure HanziEntry where
  hanzi : Word
  meanings : List Word
deriving DecidableEq

/-- Association-list lookup modelling a Python dict probe (the pair of
operations word not in cache / cache[word]). -/
def dictFind (cache : List (Word × List Word)) (w : Word) : Option (List Word) :=
  match cache with
  | [] => none
  | (k, v) :: rest => if k = w then some v else dictFind rest w

/-- The two memoization dicts of _collect_meanings plus instrumentation: the
logs record, in order, each key on which an expansion function is actually
invoked (a cache miss). -/
structure CacheState where
  enCache : List (Word × List Word)
  ruCache : List (Word × List Word)
  enLog : List Word
  ruLog : List Word

def initCaches : CacheState := ⟨[], [], [], []⟩

/-- Inner dedupe-append loop of _collect_meanings (prepare_dataset.py lines
116-120): append each variant not already seen. -/
def addVariants (meanings : List Word) (seen : Finset Word) :
    List Word → List Word × Finset Word
  | [] => (meanings, seen)
  | v :: vs =>
    if v ∈ seen then addVariants meanings seen vs
    else addVariants (meanings ++ [v]) (insert v seen) vs

/-- Root loop of _collect_meanings (prepare_dataset.py lines 107-120):
per selected root, fetch its variant list through the per-language cache
(computing and logging the expansion on a miss) and fold it into the
running meaning sequence. -/
def processRoots (expandEn expandRu : Word → List Word) :
    List (Word × String) → List Word → Finset Word → CacheState →
      List Word × CacheState
  | [], meanings, _, st => (meanings, st)
  | (word, lang) :: roots, meanings, seen, st =>
    if lang = "ru" then
      match dictFind st.ruCache word with
      | some variants =>
        let ms := addVariants meanings seen variants
        processRoots expandEn expandRu roots ms.1 ms.2 st
      | none =>
        let variants := expandRu word
        let ms := addVariants meanings seen variants
        processRoots expandEn expandRu roots ms.1 ms.2
          ⟨st.enCache, (word, variants) :: st.ruCache, st.enLog, st.ruLog ++ [word]⟩
    else
      match dictFind st.enCache word with
      | some variants =>
        let ms := addVariants meanings seen variants
        processRoots expandEn expandRu roots ms.1 ms.2 st
      | none =>
        let variants := expandEn word
        let ms := addVariants meanings seen variants
        processRoots expandEn expandRu roots ms.1 ms.2
          ⟨(word, variants) :: st.enCache, st.ruCache, st.enLog ++ [word], st.ruLog⟩

/-- Outer character loop of _collect_meanings (prepare_dataset.py lines
100-127). -/
def collectLoop (expandEn expandRu : Word → List Word)
    (en_map ru_map : Word → List Word) :
    List Word → CacheState → List HanziEntry × CacheState
  | [], st => ([], st)
  | hanzi :: rest, st =>
    let roots := select_roots (en_map hanzi) (ru_map hanzi) 3
    let ms := processRoots expandEn expandRu roots [] ∅ st
    let r := collectLoop expandEn expandRu en_map ru_map rest ms.2
    (⟨hanzi, ms.1⟩ :: r.1, r.2)

/-- Embedding of _collect_meanings (prepare_dataset.py lines 91-128).  The
candidate maps are total functions (dict .get with default empty list); the
two expansion functions are abstract and return the enumeration of the
VariantSet that the run iterates. -/
def collect_meanings (expandEn expandRu en_map ru_map : Word → List Word)
    (hanzi_list : List Word) : List HanziEntry :=
  (collectLoop expandEn expandRu en_map ru_map hanzi_list initCaches).1

/-- Variant list contributed by one selected root: the branch on the
language tag in _collect_meanings lines 107-115, without the cache. -/
def rootVariants (expandEn expandRu : Word → List Word) (r : Word × String) :
    List Word :=
  if r.2 = "ru" then expandRu r.1 else expandEn r.1

/-- Modelled from the spec: the unmemoized variant of the pipeline that
recomputes the expansion on every request (the comparison point of the
Expansion Cache claim); per character it deduplicates, first occurrence
first, the concatenation of the root expansions in root order. -/
def collect_meanings_nocache (expandEn expandRu en_map ru_map : Word → List Word)
    (hanzi_list : List Word) : List HanziEntry :=
  hanzi_list.map (fun hanzi =>
    ⟨hanzi, dedupe_preserve ((select_roots (en_map hanzi) (ru_map hanzi) 3).flatMap
      (rootVariants expandEn expandRu))⟩)

/-- Correctness of a memo table: every stored value is the expansion of its
key. -/
def cacheOk (expand : Word → List Word) (cache : List (Word × List Word)) : Prop :=
  ∀ w v, dictFind cache w = some v → v = expand w

/-- Invariant of the collect loop: both tables are correct, both logs are
duplicate-free, and each log holds exactly the keys present in its table. -/
def stateOk (expandEn expandRu : Word → List Word) (st : CacheState) : Prop :=
  cacheOk expandEn st.enCache ∧ cacheOk expandRu st.ruCache
  ∧ st.enLog.Nodup ∧ st.ruLog.Nodup
  ∧ (∀ w, w ∈ st.enLog ↔ (dictFind st.enCache w).isSome)
  ∧ (∀ w, w ∈ st.ruLog ↔ (dictFind st.ruCache w).isSome)

lemma stateOk_init (expandEn expandRu : Word → List Word) :
    stateOk expandEn expandRu initCaches := by
  refine ⟨?_, ?_, ?_, ?_, ?_, ?_⟩ <;>
    simp [cacheOk, dictFind, initCaches]

lemma addVariants_eq (meanings : List Word) (seen : Finset Word) (vs : List Word) :
    addVariants meanings seen vs
      = (meanings ++ dedupeFrom seen vs, seen ∪ vs.toFinset) := by
  induction vs generalizing meanings seen with
  | nil => simp [addVariants, dedupeFrom]
  | cons v vs ih =>
    by_cases h : v ∈ seen
    · rw [addVariants, if_pos h, ih, dedupeFrom, if_pos h, Prod.mk.injEq]
      refine ⟨rfl, ?_⟩
      ext x
      simp only [Finset.mem_union, List.toFinset_cons, Finset.mem_insert, List.mem_toFinset]
      constructor
      · rintro (hx | hx)
        · exact Or.inl hx
        · exact Or.inr (Or.inr hx)
      · rintro (hx | rfl | hx)
        · exact Or.inl hx
        · exact Or.inl h
        · exact Or.inr hx
    · rw [addVariants, if_neg h, ih, dedupeFrom, if_neg h, Prod.mk.injEq]
      constructor
      · rw [List.append_assoc, List.singleton_append]
      · ext x
        simp only [Finset.mem_union, Finset.mem_insert, List.toFinset_cons, List.mem_toFinset]
        tauto

lemma addVariants_append (meanings : List Word) (seen : Finset Word)
    (vs1 vs2 : List Word) :
    addVariants meanings seen (vs1 ++ vs2)
      = addVariants (addVariants meanings seen vs1).1 (addVariants meanings seen vs1).2 vs2 := by
  induction vs1 generalizing meanings seen with
  | nil => simp [addVariants]
  | cons v vs ih =>
    by_cases h : v ∈ seen
    · rw [List.cons_append, addVariants, if_pos h, ih]
      rw [show addVariants meanings seen (v :: vs) = addVariants meanings seen vs from by
        rw [addVariants, if_pos h]]
    · rw [List.cons_append, addVariants, if_neg h, ih]
      rw [show addVariants meanings seen (v :: vs)
          = addVariants (meanings ++ [v]) (insert v seen) vs from by
        rw [addVariants, if_neg h]]

lemma processRoots_spec (expandEn expandRu : Word → List Word)
    (roots : List (Word × String)) (meanings : List Word) (seen : Finset Word)
    (st : CacheState) (hok : stateOk expandEn expandRu st) :
    (processRoots expandEn expandRu roots meanings seen st).1
        = (addVariants meanings seen
            (roots.flatMap (rootVariants expandEn expandRu))).1
      ∧ stateOk expandEn expandRu
          (processRoots expandEn expandRu roots meanings seen st).2 := by
  induction roots generalizing meanings seen st with
  | nil => exact ⟨rfl, hok⟩
  | cons r roots ih =>
    obtain ⟨word, lang⟩ := r
    obtain ⟨hen, hru, hnen, hnru, hien, hiru⟩ := hok
    rw [List.flatMap_cons, addVariants_append]
    by_cases hlang : lang = "ru"
    · have hrv : rootVariants expandEn expandRu (word, lang) = expandRu word := by
        simp [rootVariants, hlang]
      rw [hrv]
      simp only [processRoots, if_pos hlang]
      cases hfind : dictFind st.ruCache word with
      | some variants =>
        have hv : variants = expandRu word := hru word variants hfind
        subst hv
        exact ih _ _ st ⟨hen, hru, hnen, hnru, hien, hiru⟩
      | none =>
        refine ih _ _ _ ⟨hen, ?_, hnen, ?_, hien, ?_⟩
        · intro w v hw
          simp only [dictFind] at hw
          by_cases hww : word = w
          · subst hww
            rw [if_pos rfl] at hw
            exact (Option.some.injEq _ _ ▸ hw).symm
          · rw [if_neg hww] at hw
            exact hru w v hw
        · have hnotin : word ∉ st.ruLog := by
            intro hmem
            have := (hiru word).mp hmem
            rw [hfind] at this
            simp at this
          exact List.Nodup.append hnru (List.nodup_singleton word)
            (by simpa [List.disjoint_singleton] using hnotin)
        · intro w
          simp only [List.mem_append, List.mem_singleton, dictFind]
          by_cases hww : word = w
          · subst hww
            simp
          · rw [if_neg hww]
            simp only [hiru w]
            constructor
            · rintro (hw | rfl)
              · exact hw
              · exact absurd rfl hww
            · intro hw
              exact Or.inl hw
    · have hrv : rootVariants expandEn expandRu (word, lang) = expandEn word := by
        simp [rootVariants, hlang]
      rw [hrv]
      simp only [processRoots, if_neg hlang]
      cases hfind : dictFind st.enCache word with
      | some variants =>
        have hv : variants = expandEn word := hen word variants hfind
        subst hv
        exact ih _ _ st ⟨hen, hru, hnen, hnru, hien, hiru⟩
      | none =>
        refine ih _ _ _ ⟨?_, hru, ?_, hnru, ?_, hiru⟩
        · intro w v hw
          simp only [dictFind] at hw
          by_cases hww : word = w
          · subst hww
            rw [if_pos rfl] at hw
            exact (Option.some.injEq _ _ ▸ hw).symm
          · rw [if_neg hww] at hw
            exact hen w v hw
        · have hnotin : word ∉ st.enLog := by
            intro hmem
            have := (hien word).mp hmem
            rw [hfind] at this
            simp at this
          exact List.Nodup.append hnen (List.nodup_singleton word)
            (by simpa [List.disjoint_singleton] using hnotin)
        · intro w
          simp only [List.mem_append, List.mem_singleton, dictFind]
          by_cases hww : word = w
          · subst hww
            simp
          · rw [if_neg hww]
            simp only [hien w]
            constructor
            · rintro (hw | rfl)
              · exact hw
              · exact absurd rfl hww
            · intro hw
              exact Or.inl hw

lemma collectLoop_spec (expandEn expandRu en_map ru_map : Word → List Word)
    (hl : List Word) (st : CacheState) (hok : stateOk expandEn expandRu st) :
    (collectLoop expandEn expandRu en_map ru_map hl st).1
        = hl.map (fun hanzi =>
            ⟨hanzi, dedupe_preserve ((select_roots (en_map hanzi) (ru_map hanzi) 3).flatMap
              (rootVariants expandEn expandRu))⟩)
      ∧ stateOk expandEn expandRu
          (collectLoop expandEn expandRu en_map ru_map hl st).2 := by
  induction hl generalizing st with
  | nil => exact ⟨rfl, hok⟩
  | cons hanzi rest ih =>
    obtain ⟨hp1, hp2⟩ := processRoots_spec expandEn expandRu
      (select_roots (en_map hanzi) (ru_map hanzi) 3) [] ∅ st hok
    obtain ⟨hr1, hr2⟩ := ih _ hp2
    simp only [collectLoop]
    refine ⟨?_, hr2⟩
    rw [List.map_cons, hr1]
    congr 1
    rw [hp1, addVariants_eq]
    simp only [List.nil_append]
    rw [dedupe_preserve_eq]

/-- C1: the Meaning Aggregator produces, for every character in order, the
entry whose meaning sequence is the first-occurrence-wins deduplication of
the concatenation of the selected roots' variant lists in root order; in
particular a character whose two candidate lists are both empty yields a
valid entry with an empty meaning sequence. -/
theorem meaning_aggregator_spec (expandEn expandRu en_map ru_map : Word → List Word)
    (hanzi_list : List Word) :
    collect_meanings expandEn expandRu en_map ru_map hanzi_list
        = hanzi_list.map (fun hanzi =>
            ⟨hanzi, dedupe_preserve ((select_roots (en_map hanzi) (ru_map hanzi) 3).flatMap
              (rootVariants expandEn expandRu))⟩)
    ∧ ∀ hanzi ∈ hanzi_list, en_map hanzi = [] → ru_map hanzi = [] →
        (⟨hanzi, []⟩ : HanziEntry)
          ∈ collect_meanings expandEn expandRu en_map ru_map hanzi_list := by
  have hmain : collect_meanings expandEn expandRu en_map ru_map hanzi_list
      = hanzi_list.map (fun hanzi =>
          ⟨hanzi, dedupe_preserve ((select_roots (en_map hanzi) (ru_map hanzi) 3).flatMap
            (rootVariants expandEn expandRu))⟩) :=
    (collectLoop_spec expandEn expandRu en_map ru_map hanzi_list initCaches
      (stateOk_init expandEn expandRu)).1
  refine ⟨hmain, ?_⟩
  intro hanzi hmem hen hru
  rw [hmain]
  have hsel : select_roots (en_map hanzi) (ru_map hanzi) 3 = [] := by
    rw [hen, hru]
    rfl
  have : (⟨hanzi, []⟩ : HanziEntry)
      = ⟨hanzi, dedupe_preserve ((select_roots (en_map hanzi) (ru_map hanzi) 3).flatMap
          (rootVariants expandEn expandRu))⟩ := by
    rw [hsel]
    rfl
  rw [this]
  exact List.mem_map_of_mem _ hmem

theorem meaning_aggregator_spec_witness :
    ((['学'] : Word) ∈ ([['学']] : List Word))
      ∧ (⟨['学'], []⟩ : HanziEntry)
          ∈ collect_meanings (fun _ => [['x']]) (fun _ => [['y']])
              (fun _ => []) (fun _ => []) [['学']] :=
  ⟨List.mem_singleton.mpr rfl,
    (meaning_aggregator_spec (fun _ => [['x']]) (fun _ => [['y']])
        (fun _ => []) (fun _ => []) [['学']]).2
      ['学'] (List.mem_singleton.mpr rfl) rfl rfl⟩

/-- C6: the memoized pipeline equals the unmemoized one that recomputes the
expansion on every request; the final invocation logs are duplicate-free
(each expansion function is invoked at most once per key of its language);
and every memo-table entry holds exactly the expansion of its key, so any
repeated request observes identical VariantSet contents. -/
theorem expansion_cache_spec (expandEn expandRu en_map ru_map : Word → List Word)
    (hanzi_list : List Word) :
    collect_meanings expandEn expandRu en_map ru_map hanzi_list
        = collect_meanings_nocache expandEn expandRu en_map ru_map hanzi_list
    ∧ (collectLoop expandEn expandRu en_map ru_map hanzi_list initCaches).2.enLog.Nodup
    ∧ (collectLoop expandEn expandRu en_map ru_map hanzi_list initCaches).2.ruLog.Nodup
    ∧ cacheOk expandEn
        (collectLoop expandEn expandRu en_map ru_map hanzi_list initCaches).2.enCache
    ∧ cacheOk expandRu
        (collectLoop expandEn expandRu en_map ru_map hanzi_list initCaches).2.ruCache := by
  obtain ⟨h1, h2⟩ := collectLoop_spec expandEn expandRu en_map ru_map hanzi_list
    initCaches (stateOk_init expandEn expandRu)
  obtain ⟨hen, hru, hnen, hnru, _, _⟩ := h2
  exact ⟨h1, hnen, hnru, hen, hru⟩

/-- Chunking loop of _write_lists (prepare_dataset.py lines 139-140):
range(0, len(dataset), chunk_size) with chunk_size = 100, i.e. successive
take 100 / drop 100 slices.  The recursion is bounded by an explicit fuel
that the wrapper instantiates with the dataset length. -/
def chunkFuel : Nat → List HanziEntry → List (List HanziEntry)
  | 0, _ => []
  | _ + 1, [] => []
  | fuel + 1, e :: rest => ((e :: rest).take 100) :: chunkFuel fuel ((e :: rest).drop 100)

/-- The contiguous 100-entry chunks of the dataset. -/
def chunkList (dataset : List HanziEntry) : List (List HanziEntry) :=
  chunkFuel dataset.length dataset

/-- Zero-padded chunk file name (prepare_dataset.py line 142:
list_{n:03d}.json). -/
def listFilename (n : Nat) : Word :=
  "list_".data ++ List.replicate (3 - (Nat.toDigits 10 n).length) '0'
    ++ Nat.toDigits 10 n ++ ".json".data

/-- Embedding of _write_lists (prepare_dataset.py lines 137-143): chunk i
(0-based) is written to the file numbered i + 1. -/
def write_lists (dataset : List HanziEntry) : List (Word × List HanziEntry) :=
  (chunkList dataset).enum.map (fun p => (listFilename (p.1 + 1), p.2))

lemma chunkFuel_nil (fuel : Nat) : chunkFuel fuel [] = [] := by
  cases fuel <;> rfl

lemma chunkFuel_flatten (fuel : Nat) (l : List HanziEntry) (h : l.length ≤ fuel) :
    (chunkFuel fuel l).flatten = l := by
  induction fuel generalizing l with
  | zero =>
    have : l = [] := List.eq_nil_of_length_eq_zero (Nat.le_zero.mp h)
    subst this
    rfl
  | succ fuel ih =>
    cases l with
    | nil => rfl
    | cons e rest =>
      have hlen : ((e :: rest).drop 100).length ≤ fuel := by
        rw [List.length_drop]
        simp only [List.length_cons] at h ⊢
        omega
      simp only [chunkFuel, List.flatten_cons, ih _ hlen, List.take_append_drop]

lemma chunkFuel_mem (fuel : Nat) (l : List HanziEntry) (c : List HanziEntry)
    (hc : c ∈ chunkFuel fuel l) : c.length ≤ 100 ∧ c ≠ [] := by
  induction fuel generalizing l with
  | zero => simp [chunkFuel] at hc
  | succ fuel ih =>
    cases l with
    | nil => simp [chunkFuel] at hc
    | cons e rest =>
      simp only [chunkFuel, List.mem_cons] at hc
      rcases hc with rfl | hc
      · constructor
        · rw [List.length_take]
          exact min_le_left _ _
        · simp
      · exact ih _ hc

lemma chunkFuel_dropLast (fuel : Nat) (l : List HanziEntry) (h : l.length ≤ fuel)
    (c : List HanziEntry) (hc : c ∈ (chunkFuel fuel l).dropLast) : c.length = 100 := by
  induction fuel generalizing l with
  | zero => simp [chunkFuel] at hc
  | succ fuel ih =>
    cases l with
    | nil => simp [chunkFuel] at hc
    | cons e rest =>
      by_cases hdrop : (e :: rest).drop 100 = []
      · rw [chunkFuel, hdrop, chunkFuel_nil] at hc
        simp at hc
      · have hne : chunkFuel fuel ((e :: rest).drop 100) ≠ [] := by
          intro hcf
          apply hdrop
          have hlen : ((e :: rest).drop 100).length ≤ fuel := by
            rw [List.length_drop]
            simp only [List.length_cons] at h ⊢
            omega
          have := chunkFuel_flatten fuel _ hlen
          rw [hcf] at this
          exact this.symm
        rw [chunkFuel, List.dropLast_cons_of_ne_nil hne, List.mem_cons] at hc
        rcases hc with rfl | hc
        · have hgt : 100 < (e :: rest).length := by
            by_contra hle
            apply hdrop
            rw [List.drop_eq_nil_iff]
            omega
          rw [List.length_take]
          omega
        · have hlen : ((e :: rest).drop 100).length ≤ fuel := by
            rw [List.length_drop]
            simp only [List.length_cons] at h ⊢
            omega
          exact ih _ hlen hc

/-- C7: the dataset carries one entry per frequency-list character in input
order; the chunk writer splits it into contiguous chunks of exactly 100
entries except a possibly shorter (but non-empty) last chunk; chunk i
(0-based) is written under the zero-padded sequence number i + 1 starting at
1; and concatenating the chunks in sequence order reproduces the dataset
exactly. -/
theorem dataset_chunking_spec (expandEn expandRu en_map ru_map : Word → List Word)
    (hanzi_list : List Word) (dataset : List HanziEntry) :
    (collect_meanings expandEn expandRu en_map ru_map hanzi_list).map HanziEntry.hanzi
        = hanzi_list
    ∧ (write_lists dataset).map Prod.snd = chunkList dataset
    ∧ (chunkList dataset).flatten = dataset
    ∧ (∀ c ∈ (chunkList dataset).dropLast, c.length = 100)
    ∧ (∀ c ∈ chunkList dataset, c.length ≤ 100 ∧ c ≠ [])
    ∧ (∀ i, (h : i < (write_lists dataset).length) →
        ((write_lists dataset).get ⟨i, h⟩).1 = listFilename (i + 1)) := by
  refine ⟨?_, ?_, ?_, ?_, ?_, ?_⟩
  · rw [collect_meanings, (collectLoop_spec expandEn expandRu en_map ru_map hanzi_list
      initCaches (stateOk_init expandEn expandRu)).1, List.map_map]
    have hid : (HanziEntry.hanzi ∘ fun hanzi : Word =>
        (⟨hanzi, dedupe_preserve ((select_roots (en_map hanzi) (ru_map hanzi) 3).flatMap
          (rootVariants expandEn expandRu))⟩ : HanziEntry)) = id := rfl
    rw [hid, List.map_id]
  · rw [write_lists, List.map_map]
    exact List.enum_map_snd _
  · exact chunkFuel_flatten _ _ (le_refl _)
  · exact fun c hc => chunkFuel_dropLast _ _ (le_refl _) c hc
  · exact fun c hc => chunkFuel_mem _ _ c hc
  · intro i h
    rw [List.get_eq_getElem]
    simp [write_lists, List.getElem_map, List.getElem_enum]

theorem dataset_chunking_spec_witness :
    ((write_lists [⟨['学'], []⟩]).get ⟨0, by decide⟩).1 = listFilename 1 :=
  (dataset_chunking_spec (fun _ => []) (fun _ => []) (fun _ => []) (fun _ => [])
    [] [⟨['学'], []⟩]).2.2.2.2.2 0 (by decide)

/-- Parts of speech the English lemmatizer is queried under (morph_en.py
line 35: n, v, a, r). -/
inductive POS
  | n
  | v
  | a
  | r
deriving DecidableEq

def posList : List POS := [POS.n, POS.v, POS.a, POS.r]

/-- Embedding of lemmatize_variants (morph_en.py lines 30-39).  The WordNet
lemmatizer is the abstract parameter lemmatize; wordnetAvailable models the
conjunction of the two resource checks (_LEMMATIZER present and the WordNet
corpus findable); an empty word models a falsy lemma. -/
def lemmatize_variants (wordnetAvailable : Bool)
    (lemmatize : Word → POS → Word) (word : Word) : Finset Word :=
  if !wordnetAvailable then {word}
  else posList.foldl (fun lemmas pos =>
    if lemmatize word pos ≠ [] then insert (lemmatize word pos) lemmas else lemmas)
    {word}

/-- Embedding of generate_inflections (morph_en.py lines 42-50), with
getAllInflections abstract as the list of its returned dict's values, one
form list per inflection key. -/
def generate_inflections (wordnetAvailable : Bool) (lemmatize : Word → POS → Word)
    (inflectionsOf : Word → List (List Word)) (word : Word) : Finset Word :=
  (lemmatize_variants wordnetAvailable lemmatize word).biUnion (fun lem =>
    insert lem (inflectionsOf lem).flatten.toFinset)

/-- Set-input form of encode_suffix_variants for the call sites that pass a
Python set rather than a list; its output depends only on membership of the
input, which encode_suffix_variants_set_spec makes precise. -/
def encode_suffix_variants_set (lem : Word) (forms : Finset Word)
    ( drop_non_prefix : Bool) : Finset Word :=
  forms.biUnion (fun f => (encodeForm lem drop_non_prefix f).toFinset)

lemma encode_suffix_variants_set_spec (lem : Word) (forms : List Word) (d : Bool) :
    encode_suffix_variants_set lem forms.toFinset d = encode_suffix_variants lem forms d := by
  rw [encode_eq_filterMap]
  ext x
  simp [encode_suffix_variants_set, List.mem_filterMap, Option.mem_toFinset, Option.mem_def]

/-- Embedding of _expand_english_word (prepare_dataset.py lines 53-58). -/
def expand_english_word (wordnetAvailable : Bool) (lemmatize : Word → POS → Word)
    (inflectionsOf : Word → List (List Word)) (word : Word) : Finset Word :=
  (lemmatize_variants wordnetAvailable lemmatize word).biUnion (fun lem =>
    encode_suffix_variants_set lem
      (generate_inflections wordnetAvailable lemmatize inflectionsOf lem) true)

/-- Embedding of generate_lexeme_forms (morph_ru.py lines 22-32).  The
pymorphy2 analyzer is abstract: parse returns, when the parse list is
non-empty, the best parse's normal form ([] models a falsy one) together
with the word of each form of its lexeme. -/
def generate_lexeme_forms (parse : Word → Option (Word × List Word))
    (word : Word) : Word × Finset Word :=
  match parse word with
  | none => (word, {word})
  | some (nf, lexemeWords) =>
    let lem := if nf = [] then word else nf
    (lem, insert lem (lexemeWords.filter (fun w => w ≠ [])).toFinset)

/-- Embedding of _expand_russian_word (prepare_dataset.py lines 61-63). -/
def expand_russian_word (parse : Word → Option (Word × List Word))
    (word : Word) : Finset Word :=
  encode_suffix_variants_set (generate_lexeme_forms parse word).1
    (generate_lexeme_forms parse word).2 true

lemma lemmatize_foldl_mono (lemmatize : Word → POS → Word) (word : Word)
    (l : List POS) (s : Finset Word) :
    s ⊆ l.foldl (fun lemmas pos =>
      if lemmatize word pos ≠ [] then insert (lemmatize word pos) lemmas else lemmas) s := by
  induction l generalizing s with
  | nil => exact subset_rfl
  | cons p ps ih =>
    rw [List.foldl_cons]
    by_cases h : lemmatize word p ≠ []
    · rw [if_pos h]
      exact subset_trans (Finset.subset_insert _ _) (ih _)
    · rw [if_neg h]
      exact ih s

lemma mem_lemmatize_self (wordnetAvailable : Bool) (lemmatize : Word → POS → Word)
    (word : Word) : word ∈ lemmatize_variants wordnetAvailable lemmatize word := by
  cases wordnetAvailable with
  | false => simp [lemmatize_variants]
  | true =>
    rw [lemmatize_variants]
    simp only [Bool.not_true, Bool.false_eq_true, if_false]
    exact lemmatize_foldl_mono lemmatize word posList {word} (Finset.mem_singleton_self word)

lemma mem_expand_english (wordnetAvailable : Bool) (lemmatize : Word → POS → Word)
    (inflectionsOf : Word → List (List Word)) (word : Word) :
    word ∈ expand_english_word wordnetAvailable lemmatize inflectionsOf word := by
  rw [expand_english_word, Finset.mem_biUnion]
  refine ⟨word, mem_lemmatize_self _ _ _, ?_⟩
  rw [encode_suffix_variants_set, Finset.mem_biUnion]
  refine ⟨word, ?_, ?_⟩
  · rw [generate_inflections, Finset.mem_biUnion]
    exact ⟨word, mem_lemmatize_self _ _ _, Finset.mem_insert_self _ _⟩
  · have henc : encodeForm word true word = some word := by
      simp [encodeForm]
    rw [henc]
    simp

lemma lemma_mem_lexeme_forms (parse : Word → Option (Word × List Word)) (word : Word) :
    (generate_lexeme_forms parse word).1 ∈ (generate_lexeme_forms parse word).2 := by
  rw [generate_lexeme_forms]
  cases hp : parse word with
  | none => simp
  | some p =>
    obtain ⟨nf, lex⟩ := p
    simp

lemma mem_expand_russian (parse : Word → Option (Word × List Word)) (word : Word) :
    (generate_lexeme_forms parse word).1 ∈ expand_russian_word parse word := by
  rw [expand_russian_word, encode_suffix_variants_set, Finset.mem_biUnion]
  refine ⟨(generate_lexeme_forms parse word).1, lemma_mem_lexeme_forms parse word, ?_⟩
  have henc : encodeForm (generate_lexeme_forms parse word).1 true
      (generate_lexeme_forms parse word).1 = some (generate_lexeme_forms parse word).1 := by
    simp [encodeForm]
  rw [henc]
  simp

lemma dedupe_preserve_ne_nil {l : List Word} (h : l ≠ []) : dedupe_preserve l ≠ [] := by
  cases l with
  | nil => exact absurd rfl h
  | cons v vs =>
    rw [dedupe_preserve_eq, dedupeFrom, if_neg (Finset.not_mem_empty v)]
    exact List.cons_ne_nil _ _

/-- C8: with WordNet resources unavailable the lemma set is exactly the word
itself (degraded mode, not an error); with them available and a lemmatizer
returning non-empty lemmas, it is the word united with its lemma under each
of the four parts of speech. -/
theorem english_lemma_set_spec (lemmatize : Word → POS → Word) (word : Word) :
    lemmatize_variants false lemmatize word = {word}
    ∧ ((∀ p : POS, lemmatize word p ≠ []) →
        lemmatize_variants true lemmatize word
          = insert word (posList.map (lemmatize word)).toFinset) := by
  refine ⟨rfl, ?_⟩
  intro hne
  have hstep : lemmatize_variants true lemmatize word
      = insert (lemmatize word POS.r) (insert (lemmatize word POS.a)
          (insert (lemmatize word POS.v) (insert (lemmatize word POS.n) {word}))) := by
    rw [lemmatize_variants]
    simp only [Bool.not_true, Bool.false_eq_true, if_false, posList, List.foldl_cons,
      List.foldl_nil, if_pos (hne POS.n), if_pos (hne POS.v), if_pos (hne POS.a),
      if_pos (hne POS.r)]
  rw [hstep]
  ext x
  simp only [Finset.mem_insert, Finset.mem_singleton, posList, List.map_cons,
    List.map_nil, List.toFinset_cons, List.toFinset_nil, Finset.not_mem_empty,
    or_false]
  tauto

theorem english_lemma_set_spec_witness :
    ((['x'] : Word) ≠ [])
      ∧ lemmatize_variants true (fun _ _ => ['x']) ['y']
          = insert ['y'] (posList.map ((fun _ _ => ['x']) ['y'])).toFinset :=
  ⟨by decide,
    (english_lemma_set_spec (fun _ _ => ['x']) ['y']).2 (fun _ => by decide)⟩

/-- C9: the English expansion always contains the input word itself, the
Russian expansion always contains the best parse's lemma, and, for any
expansion functions whose enumerations are never empty, every character with
at least one selected root receives a non-empty meaning sequence. -/
theorem expansion_nonempty_spec :
    (∀ (wordnetAvailable : Bool) (lemmatize : Word → POS → Word)
        (inflectionsOf : Word → List (List Word)) (word : Word),
      word ∈ expand_english_word wordnetAvailable lemmatize inflectionsOf word)
    ∧ (∀ (parse : Word → Option (Word × List Word)) (word : Word),
        (generate_lexeme_forms parse word).1 ∈ expand_russian_word parse word)
    ∧ (∀ (expandEn expandRu en_map ru_map : Word → List Word)
          (hanzi_list : List Word),
        (∀ w, expandEn w ≠ []) → (∀ w, expandRu w ≠ []) →
        ∀ e ∈ collect_meanings expandEn expandRu en_map ru_map hanzi_list,
          select_roots (en_map e.hanzi) (ru_map e.hanzi) 3 ≠ [] →
          e.meanings ≠ []) := by
  refine ⟨mem_expand_english, mem_expand_russian, ?_⟩
  intro expandEn expandRu en_map ru_map hanzi_list hEn hRu e he hroots
  rw [collect_meanings, (collectLoop_spec expandEn expandRu en_map ru_map hanzi_list
    initCaches (stateOk_init expandEn expandRu)).1, List.mem_map] at he
  obtain ⟨hanzi, hmem, rfl⟩ := he
  dsimp only at hroots ⊢
  apply dedupe_preserve_ne_nil
  intro hflat
  cases hsel : select_roots (en_map hanzi) (ru_map hanzi) 3 with
  | nil => exact hroots hsel
  | cons r rest =>
    rw [hsel, List.flatMap_cons] at hflat
    rcases List.append_eq_nil.mp hflat with ⟨h1, _⟩
    obtain ⟨w, t⟩ := r
    by_cases ht : t = "ru"
    · exact hRu w (by simpa [rootVariants, ht] using h1)
    · exact hEn w (by simpa [rootVariants, ht] using h1)

theorem expansion_nonempty_spec_witness :
    HanziEntry.meanings ⟨['学'], [['x']]⟩ ≠ [] :=
  expansion_nonempty_spec.2.2 (fun _ => [['x']]) (fun _ => [['y']])
    (fun _ => [['g', 'o']]) (fun _ => []) [['学']]
    (fun _ => List.cons_ne_nil _ _) (fun _ => List.cons_ne_nil _ _)
    ⟨['学'], [['x']]⟩ (by decide) (by decide)

/-- English stopword list (parse_unihan.py lines 6-27). -/
def STOPWORDS_EN : List Word :=
  ["a", "an", "and", "as", "at", "be", "by", "for", "from", "in", "into", "is",
   "it", "of", "on", "or", "same", "the", "to", "with"].map String.data

/-- Russian stopword list (parse_bkrs.py lines 8-38). -/
def STOPWORDS_RU : List Word :=
  ["и", "в", "во", "на", "с", "со", "к", "ко", "по", "от", "до", "за", "для",
   "о", "об", "у", "из", "под", "над", "при", "это", "этот", "эта", "эти",
   "как", "или", "что", "не", "но"].map String.data

/-- Character class of the word regex [a-z]+ (parse_unihan.py line 30). -/
def isAsciiLowerAlpha (c : Char) : Bool := 'a' ≤ c && c ≤ 'z'

/-- Character class of the case-insensitive word regex [а-яё]+
(parse_bkrs.py line 41): lowercase or uppercase Russian rows including
io. -/
def isRuWordChar (c : Char) : Bool :=
  ('а' ≤ c && c ≤ 'я') || c == 'ё' || ('А' ≤ c && c ≤ 'Я') || c == 'Ё'

/-- Fuel-bounded scanner modelling re.sub of the segment-deleting patterns
of parse_unihan.py lines 31-32: an opening delimiter followed (not
necessarily immediately) by a closing one has the whole segment replaced by
a single space, and scanning resumes after the closing delimiter.  The
wrapper feeds the text length as fuel, which the scan never exhausts. -/
def stripDelimFuel (op cl : Char) : Nat → List Char → List Char
  | 0, l => l
  | _ + 1, [] => []
  | fuel + 1, c :: rest =>
    if c = op then
      match rest.dropWhile (fun x => x ≠ cl) with
      | [] => c :: stripDelimFuel op cl fuel rest
      | _ :: after => ' ' :: stripDelimFuel op cl fuel after
    else c :: stripDelimFuel op cl fuel rest

def stripDelim (op cl : Char) (text : List Char) : List Char :=
  stripDelimFuel op cl text.length text

/-- Fuel-bounded maximal-run scanner modelling finditer of a
character-class regex: the maximal runs of characters satisfying p, left to
right.  The wrapper feeds the text length as fuel, which the scan never
exhausts. -/
def splitRunsFuel (p : Char → Bool) : Nat → List Char → List Word
  | 0, _ => []
  | _ + 1, [] => []
  | fuel + 1, c :: cs =>
    if p c then (c :: cs.takeWhile p) :: splitRunsFuel p fuel (cs.dropWhile p)
    else splitRunsFuel p fuel cs

def splitRuns (p : Char → Bool) (text : List Char) : List Word :=
  splitRunsFuel p text.length text

/-- Embedding of _extract_english_words (parse_unihan.py lines 46-55):
lowercase, delete parenthesized then bracketed segments, keep the maximal
[a-z] runs that are neither stopwords nor single letters, and dedupe
preserving first occurrence. -/
def extract_english_words (text : List Char) : List Word :=
  dedupe_preserve
    ((splitRuns isAsciiLowerAlpha
        (stripDelim '[' ']' (stripDelim '(' ')' (text.map toLowerPy)))).filter
      (fun w => decide (w ∉ STOPWORDS_EN) && decide (1 < w.length)))

/-- Embedding of _extract_russian_words (parse_bkrs.py lines 55-62): keep
the maximal case-insensitive [а-яё] runs whose lowercase form is not a
stopword and whose length exceeds one, lowercase them, and dedupe
preserving first occurrence. -/
def extract_russian_words (text : List Char) : List Word :=
  dedupe_preserve
    (((splitRuns isRuWordChar text).filter
        (fun r => decide (r.map toLowerPy ∉ STOPWORDS_RU) && decide (1 < r.length))).map
      (fun r => r.map toLowerPy))

lemma splitRunsFuel_infix (p : Char → Bool) (fuel : Nat) (l : List Char)
    (w : Word) (hw : w ∈ splitRunsFuel p fuel l) :
    ∃ pre post, l = pre ++ w ++ post := by
  induction fuel generalizing l with
  | zero => simp [splitRunsFuel] at hw
  | succ fuel ih =>
    cases l with
    | nil => simp [splitRunsFuel] at hw
    | cons c cs =>
      rw [splitRunsFuel] at hw
      by_cases hc : p c
      · rw [if_pos hc, List.mem_cons] at hw
        rcases hw with rfl | hw
        · refine ⟨[], cs.dropWhile p, ?_⟩
          rw [List.nil_append, List.cons_append, List.takeWhile_append_dropWhile]
        · obtain ⟨pre, post, hs⟩ := ih _ hw
          have hcs : cs = cs.takeWhile p ++ (pre ++ w ++ post) := by
            rw [← hs, List.takeWhile_append_dropWhile]
          refine ⟨c :: (cs.takeWhile p ++ pre), post, ?_⟩
          conv_lhs => rw [hcs]
          simp [List.append_assoc]
      · rw [if_neg hc] at hw
        obtain ⟨pre, post, hs⟩ := ih _ hw
        exact ⟨c :: pre, post, by rw [hs]; simp [List.append_assoc]⟩

/-- C10: every extracted candidate in either language has length at least
two (one-letter tokens are discarded even when they are not stopwords), no
extracted English word is a stopword, and every extracted English word
occurs verbatim in the text obtained after deleting the parenthesized and
bracketed segments of the lowercased definition — so a word occurring only
inside such segments never becomes a candidate root. -/
theorem candidate_extraction_spec (text : List Char) :
    (∀ w ∈ extract_english_words text,
      1 < w.length ∧ w ∉ STOPWORDS_EN
        ∧ ∃ pre post,
            stripDelim '[' ']' (stripDelim '(' ')' (text.map toLowerPy))
              = pre ++ w ++ post)
    ∧ (∀ w ∈ extract_russian_words text, 1 < w.length) := by
  constructor
  · intro w hw
    rw [extract_english_words, dedupe_preserve_eq] at hw
    have hw' := mem_of_mem_dedupeFrom hw
    rw [List.mem_filter] at hw'
    obtain ⟨hrun, hcond⟩ := hw'
    rw [Bool.and_eq_true, decide_eq_true_eq, decide_eq_true_eq] at hcond
    exact ⟨hcond.2, hcond.1, splitRunsFuel_infix _ _ _ w hrun⟩
  · intro w hw
    rw [extract_russian_words, dedupe_preserve_eq] at hw
    have hw' := mem_of_mem_dedupeFrom hw
    rw [List.mem_map] at hw'
    obtain ⟨r, hr, rfl⟩ := hw'
    rw [List.mem_filter] at hr
    obtain ⟨_, hcond⟩ := hr
    rw [Bool.and_eq_true, decide_eq_true_eq, decide_eq_true_eq] at hcond
    rw [List.length_map]
    exact hcond.2

theorem candidate_extraction_spec_witness :
    1 < (['b', 'u', 'g'] : Word).length ∧ (['b', 'u', 'g'] : Word) ∉ STOPWORDS_EN
      ∧ ∃ pre post,
          stripDelim '[' ']' (stripDelim '(' ')' ("at bug (hidden)".data.map toLowerPy))
            = pre ++ ['b', 'u', 'g'] ++ post :=
  (candidate_extraction_spec "at bug (hidden)".data).1 ['b', 'u', 'g'] (by decide)
